import Mathlib

/-!
Verification development for the deterministic scenario-generation and
hand-ranking engine of the `thenuts` poker-trainer repository.

The definitions below are a shallow embedding of the TypeScript/JavaScript
sources:
  * `src/lib/poker.ts`            — simple hand evaluator and comparator
  * `src/lib/pokersolver-wrapper.ts` — best-hand search and nuts finder
  * `src/lib/random.ts`, `cards.js`  — mulberry32 PRNG and Fisher-Yates shuffles
  * `dist/games/advanced/TheNuts.js` (= `games/advanced/TheNuts.ts`) — scenario
    and decoy generation

JavaScript numbers are modelled as follows: 32-bit coercions (`x | y`,
`x >>> k`, `Math.imul`, `^`) act on the unsigned 32-bit word `x % 2^32`,
which has the same bit pattern as the JS signed/unsigned views; `Math.random`
style draws in `[0,1)` are IEEE doubles, i.e. dyadic rationals `m / 2^53`,
modelled by their numerator `m : Nat`; `Math.floor (r * n)` for such a draw
and small `n` is then exactly `m * n / 2^53` in natural division.
Fallible JS behaviour (out-of-range indexing yielding `undefined`) is
modelled with `Option`.
-/

/-- Card ranks, in the source order of `RANKS = ['2',…,'9','T','J','Q','K','A']`. -/
inductive Rank where
  | r2 | r3 | r4 | r5 | r6 | r7 | r8 | r9 | rT | rJ | rQ | rK | rA
deriving DecidableEq

/-- Card suits, in the source order of `SUITS = ['h','d','c','s']`. -/
inductive Suit where
  | h | d | c | s
deriving DecidableEq

/-- A playing card: the canonical parsed value (rank, suit) produced by
`parseCard`; equality is componentwise, as in the source. -/
structure Card where
  rank : Rank
  suit : Suit
deriving DecidableEq

/-- The `RANKS` constant from `cards.js` (ascending). -/
def RANKS : List Rank :=
  [.r2, .r3, .r4, .r5, .r6, .r7, .r8, .r9, .rT, .rJ, .rQ, .rK, .rA]

/-- The `SUITS` constant from `cards.js`. -/
def SUITS : List Suit := [.h, .d, .c, .s]

/-- Ranks in descending value order (`[...counts].sort((a,b) => rv b - rv a)`
on distinct ranks always yields this order). -/
def ranksDesc : List Rank := RANKS.reverse

/-- getRankValue from `poker.ts`: A=14, K=13, Q=12, J=11, T=10, digits literal. -/
def getRankValue : Rank → Nat
  | .rA => 14 | .rK => 13 | .rQ => 12 | .rJ => 11 | .rT => 10
  | .r9 => 9 | .r8 => 8 | .r7 => 7 | .r6 => 6 | .r5 => 5
  | .r4 => 4 | .r3 => 3 | .r2 => 2

/-- Canonical rank character used by `Card.toString` (`'T'`, not `'10'`). -/
def rankChar : Rank → String
  | .rA => "A" | .rK => "K" | .rQ => "Q" | .rJ => "J" | .rT => "T"
  | .r9 => "9" | .r8 => "8" | .r7 => "7" | .r6 => "6" | .r5 => "5"
  | .r4 => "4" | .r3 => "3" | .r2 => "2"

/-- Canonical suit character. -/
def suitChar : Suit → String
  | .h => "h" | .d => "d" | .c => "c" | .s => "s"

/-- Canonical string form of a card, `toString: () => rank + suit` in `parseCard`. -/
def cardStr (c : Card) : String := rankChar c.rank ++ suitChar c.suit

/-- Number of cards of a given suit (the `suitCounts` record of `poker.ts`). -/
def suitCount (cs : List Card) (su : Suit) : Nat :=
  cs.countP (fun c => decide (c.suit = su))

/-- Number of cards of a given rank (the `countRanks` map of `poker.ts`). -/
def rankCount (cs : List Card) (r : Rank) : Nat :=
  cs.countP (fun c => decide (c.rank = r))

/-- isFlush from `poker.ts`: at least 5 cards and some suit with count ≥ 5. -/
def isFlush (cs : List Card) : Bool :=
  if cs.length < 5 then false
  else SUITS.any (fun su => 5 ≤ suitCount cs su)

/-- The distinct rank values of the cards in descending order:
`[...new Set(values)].sort((a,b) => b - a)` from `isStraight`. -/
def rankValuesDesc (cs : List Card) : List Nat :=
  (List.range 15).reverse.filter
    (fun v => (cs.map (fun c => getRankValue c.rank)).contains v)

/-- One window of the `isStraight` loop: the first 5 entries decrease by
exactly 1 at each of the 4 steps. -/
def run5 : List Nat → Bool
  | a :: b :: c :: d :: e :: _ =>
    decide (a - b = 1) && decide (b - c = 1) && decide (c - d = 1)
      && decide (d - e = 1)
  | _ => false

/-- The sliding-window loop of `isStraight`: some window of 5 successive
entries of the (descending, distinct) value list decreases by exactly 1 at
each of its 4 steps. -/
def hasRun : List Nat → Bool
  | [] => false
  | a :: rest => run5 (a :: rest) || hasRun rest

/-- isStraight from `poker.ts`: a 5-run among distinct descending values, or
the wheel A-2-3-4-5 (values 14,2,3,4,5 all present). -/
def isStraight (cs : List Card) : Bool :=
  if cs.length < 5 then false
  else
    let rvs := rankValuesDesc cs
    hasRun rvs || (rvs.contains 14 && rvs.contains 2 && rvs.contains 3
      && rvs.contains 4 && rvs.contains 5)

/-- isStraightFlush from `poker.ts`: some suit with ≥ 5 cards whose cards form
a straight. -/
def isStraightFlush (cs : List Card) : Bool :=
  if cs.length < 5 then false
  else SUITS.any (fun su =>
    let suited := cs.filter (fun c => decide (c.suit = su))
    5 ≤ suited.length && isStraight suited)

/-- getPairs from `poker.ts`: ranks with count exactly 2, in descending rank
value order (the source sorts the map keys by descending value). -/
def getPairs (cs : List Card) : List Rank :=
  ranksDesc.filter (fun r => decide (rankCount cs r = 2))

/-- getThreeOfAKinds from `poker.ts`: ranks with count exactly 3, descending. -/
def getThreeOfAKinds (cs : List Card) : List Rank :=
  ranksDesc.filter (fun r => decide (rankCount cs r = 3))

/-- getFourOfAKinds from `poker.ts`: ranks with count exactly 4, descending. -/
def getFourOfAKinds (cs : List Card) : List Rank :=
  ranksDesc.filter (fun r => decide (rankCount cs r = 4))

/-- The ten hand categories of `poker.ts` (`HandRanking`). -/
inductive HandRanking where
  | highCard | pair | twoPair | threeOfAKind | straight
  | flush | fullHouse | fourOfAKind | straightFlush | royalFlush
deriving DecidableEq

/-- HandEvaluation record of `poker.ts`: category name, its numeric rank
(1 = High Card … 10 = Royal Flush) and the echoed card strings. -/
structure HandEvaluation where
  name : HandRanking
  rank : Nat
  cards : List String
deriving DecidableEq

/-- evaluateHand from `poker.ts` (lines 199-229): fewer than 5 cards yield
High Card / rank 1; otherwise the checks run in the source order, each
short-circuiting the next. -/
def evaluateHand (cs : List Card) : HandEvaluation :=
  let cardStrings := cs.map cardStr
  if cs.length < 5 then ⟨.highCard, 1, cardStrings⟩
  else if isStraightFlush cs && cs.any (fun c => decide (c.rank = Rank.rA)) then
    ⟨.royalFlush, 10, cardStrings⟩
  else if isStraightFlush cs then ⟨.straightFlush, 9, cardStrings⟩
  else if 0 < (getFourOfAKinds cs).length then ⟨.fourOfAKind, 8, cardStrings⟩
  else if 0 < (getThreeOfAKinds cs).length && 0 < (getPairs cs).length then
    ⟨.fullHouse, 7, cardStrings⟩
  else if isFlush cs then ⟨.flush, 6, cardStrings⟩
  else if isStraight cs then ⟨.straight, 5, cardStrings⟩
  else if 0 < (getThreeOfAKinds cs).length then ⟨.threeOfAKind, 4, cardStrings⟩
  else if 2 ≤ (getPairs cs).length then ⟨.twoPair, 3, cardStrings⟩
  else if (getPairs cs).length = 1 then ⟨.pair, 2, cardStrings⟩
  else ⟨.highCard, 1, cardStrings⟩

/-- Insert into a descending-sorted list (used to model the JS
`sort((a,b) => b - a)` on rank values; only the value multiset matters). -/
def insertDesc (a : Nat) : List Nat → List Nat
  | [] => [a]
  | b :: t => if a ≥ b then a :: b :: t else b :: insertDesc a t

/-- Rank values of a hand sorted descending. -/
def sortedValsDesc (cs : List Card) : List Nat :=
  (cs.map (fun c => getRankValue c.rank)).foldr insertDesc []

/-- Positional comparison of two value sequences over their common length:
the `for` loops of `compareHands` returning the first nonzero difference. -/
def cmpSeq : List Nat → List Nat → Int
  | a :: t1, b :: t2 =>
    if (a : Int) - b ≠ 0 then (a : Int) - b else cmpSeq t1 t2
  | _, _ => 0

/-- compareHands from `poker.ts` (lines 383-470): positive iff the first hand
wins.  Category ranks compare first; on equal rank the per-category tiebreak
runs exactly as in the source (note: Straight Flush and Royal Flush have no
switch case and tie at 0; the quads branch ignores kickers). -/
def compareHands (h1 h2 : List Card) : Int :=
  let eval1 := evaluateHand h1
  let eval2 := evaluateHand h2
  if eval1.rank ≠ eval2.rank then (eval1.rank : Int) - eval2.rank
  else
    match eval1.name with
    | .fourOfAKind =>
      let q1 := getRankValue ((getFourOfAKinds h1).headD .r2)
      let q2 := getRankValue ((getFourOfAKinds h2).headD .r2)
      if (q1 : Int) - q2 ≠ 0 then (q1 : Int) - q2 else 0
    | .fullHouse =>
      let t1 := getRankValue ((getThreeOfAKinds h1).headD .r2)
      let t2 := getRankValue ((getThreeOfAKinds h2).headD .r2)
      if (t1 : Int) - t2 ≠ 0 then (t1 : Int) - t2
      else
        let p1 := getRankValue ((getPairs h1).headD .r2)
        let p2 := getRankValue ((getPairs h2).headD .r2)
        (p1 : Int) - p2
    | .flush => cmpSeq (sortedValsDesc h1) (sortedValsDesc h2)
    | .straight => cmpSeq (sortedValsDesc h1) (sortedValsDesc h2)
    | .highCard => cmpSeq (sortedValsDesc h1) (sortedValsDesc h2)
    | .threeOfAKind =>
      let t1 := (getThreeOfAKinds h1).headD .r2
      let t2 := (getThreeOfAKinds h2).headD .r2
      if (getRankValue t1 : Int) - getRankValue t2 ≠ 0 then
        (getRankValue t1 : Int) - getRankValue t2
      else
        cmpSeq (sortedValsDesc (h1.filter (fun c => decide (c.rank ≠ t1))))
               (sortedValsDesc (h2.filter (fun c => decide (c.rank ≠ t2))))
    | .twoPair =>
      let ps1 := getPairs h1
      let ps2 := getPairs h2
      let hi1 := getRankValue (ps1.headD .r2)
      let hi2 := getRankValue (ps2.headD .r2)
      if (hi1 : Int) - hi2 ≠ 0 then (hi1 : Int) - hi2
      else
        let lo1 := getRankValue ((ps1.drop 1).headD .r2)
        let lo2 := getRankValue ((ps2.drop 1).headD .r2)
        if (lo1 : Int) - lo2 ≠ 0 then (lo1 : Int) - lo2
        else
          match h1.find? (fun c => !(ps1.contains c.rank)),
                h2.find? (fun c => !(ps2.contains c.rank)) with
          | some k1, some k2 =>
            (getRankValue k1.rank : Int) - getRankValue k2.rank
          | _, _ => 0
    | .pair =>
      let p1 := (getPairs h1).headD .r2
      let p2 := (getPairs h2).headD .r2
      if (getRankValue p1 : Int) - getRankValue p2 ≠ 0 then
        (getRankValue p1 : Int) - getRankValue p2
      else
        cmpSeq (sortedValsDesc (h1.filter (fun c => decide (c.rank ≠ p1))))
               (sortedValsDesc (h2.filter (fun c => decide (c.rank ≠ p2))))
    | _ => 0

-- Shorthand card literals for concrete test hands.
def Ah : Card := ⟨.rA, .h⟩
def Kh : Card := ⟨.rK, .h⟩
def Kd : Card := ⟨.rK, .d⟩
def Ks : Card := ⟨.rK, .s⟩
def Qh : Card := ⟨.rQ, .h⟩
def Qd : Card := ⟨.rQ, .d⟩
def Qs : Card := ⟨.rQ, .s⟩
def Ad : Card := ⟨.rA, .d⟩
def C2c : Card := ⟨.r2, .c⟩
def C2d : Card := ⟨.r2, .d⟩
def C2h : Card := ⟨.r2, .h⟩
def C3c : Card := ⟨.r3, .c⟩
def C3d : Card := ⟨.r3, .d⟩
def C4c : Card := ⟨.r4, .c⟩
def C4s : Card := ⟨.r4, .s⟩
def C5h : Card := ⟨.r5, .h⟩
def C5s : Card := ⟨.r5, .s⟩
def C6h : Card := ⟨.r6, .h⟩

/-! ## Pokersolver model and the wrapper's search functions

`pokersolver-wrapper.ts` delegates 5-card evaluation and hand comparison to
the external `pokersolver` library (`Hand.solve`, `Hand.winners`), loaded
from a CDN and not part of this repository.  That evaluation is modelled
from the spec below; the wrapper's own search code (`findBestHand`,
`findTheNuts`) is embedded from the source.
-/

/-- Modelled from the spec: the result of the external pokersolver 5-card
evaluation, §3 "HandEvaluation": a category (1 = High Card … 10 = Royal
Flush, the order of §4.3) together with the ordered tiebreak rank values of
that category (§4.3: Full House trip-then-pair; Two Pair high, low, kicker;
straights use the high card with the wheel counting the Ace low as high 5;
flushes and high card use the full descending value sequence). -/
structure SEval where
  cat : Nat
  tb : List Nat
deriving DecidableEq

/-- Modelled from the spec: classification of a 5-card hand per §4.3, in the
stated short-circuit order (straight-flush incl. royal, quads, full house,
flush, straight incl. wheel, trips, two pair, pair, high card). -/
def solverEval (cs : List Card) : SEval :=
  let vals := sortedValsDesc cs
  let dvals := rankValuesDesc cs
  let isFl := decide (cs.length = 5) &&
    (match cs with
     | c :: rest => rest.all (fun x => decide (x.suit = c.suit))
     | [] => false)
  let wheel := decide (dvals = [14, 5, 4, 3, 2])
  let isSt := decide (cs.length = 5) && decide (dvals.length = 5) &&
    (run5 dvals || wheel)
  let stHigh := if wheel then 5 else dvals.headD 0
  let quadVals := (ranksDesc.filter (fun r => decide (rankCount cs r = 4))).map getRankValue
  let tripVals := (ranksDesc.filter (fun r => decide (rankCount cs r = 3))).map getRankValue
  let pairVals := (ranksDesc.filter (fun r => decide (rankCount cs r = 2))).map getRankValue
  if isFl && isSt then
    if stHigh = 14 then ⟨10, []⟩ else ⟨9, [stHigh]⟩
  else
    match quadVals with
    | q :: _ => ⟨8, q :: vals.filter (fun v => decide (v ≠ q))⟩
    | [] =>
      match tripVals, pairVals with
      | t :: _, p :: _ => ⟨7, [t, p]⟩
      | _, _ =>
        if isFl then ⟨6, vals⟩
        else if isSt then ⟨5, [stHigh]⟩
        else
          match tripVals with
          | t :: _ => ⟨4, t :: vals.filter (fun v => decide (v ≠ t))⟩
          | [] =>
            match pairVals with
            | p1 :: p2 :: _ =>
              ⟨3, p1 :: p2 :: vals.filter (fun v => decide (v ≠ p1 ∧ v ≠ p2))⟩
            | [p] => ⟨2, p :: vals.filter (fun v => decide (v ≠ p))⟩
            | [] => ⟨1, vals⟩

/-- Modelled from the spec: the pokersolver description string for a
category, as consumed by `estimateHandStrength` and the choice hints. -/
def descrOfCat (cat : Nat) : String :=
  if cat = 10 then "Royal Flush"
  else if cat = 9 then "Straight Flush"
  else if cat = 8 then "Four of a Kind"
  else if cat = 7 then "Full House"
  else if cat = 6 then "Flush"
  else if cat = 5 then "Straight"
  else if cat = 4 then "Three of a Kind"
  else if cat = 3 then "Two Pair"
  else if cat = 2 then "Pair"
  else "High Card"

/-- Lexicographic comparison of value sequences (§3: evaluations compare
first by category, then lexicographically by tiebreak ranks). -/
def listCmp : List Nat → List Nat → Ordering
  | [], [] => .eq
  | [], _ :: _ => .lt
  | _ :: _, [] => .gt
  | a :: as, b :: bs =>
    match compare a b with
    | .eq => listCmp as bs
    | o => o

/-- Modelled from the spec: the total order `Hand.winners` realises on two
evaluations — category first, then the tiebreak sequence lexicographically
(§4.4).  `Hand.winners([a,b]) = [b]` alone iff this returns `.gt` on
`(b, a)`. -/
def evalCmp (u v : SEval) : Ordering :=
  listCmp (u.cat :: u.tb) (v.cat :: v.tb)

/-- Generic "keep the first maximum" fold: `better a best` replaces the
current best only on strict improvement.  This is the shape shared by the
stable `sort`-then-head of `findBestHand` (ES2019 `Array.sort` is stable, so
`sorted[0]` is the first maximal element in enumeration order) and by the
explicit update loop of `findTheNuts`. -/
def foldPick (better : α → α → Bool) (b : α) (l : List α) : α :=
  l.foldl (fun best a => if better a best then a else best) b

/-- All k-element sublists in the order of the nested index loops of
`findBestHand` (ascending index combinations, lexicographic). -/
def combosK : Nat → List α → List (List α)
  | 0, _ => [[]]
  | _ + 1, [] => []
  | k + 1, a :: rest => (combosK k rest).map (fun c => a :: c) ++ combosK (k + 1) rest

/-- Result record of `findBestHand`. -/
structure BestHand where
  cards : List Card
  description : String
deriving DecidableEq

/-- findBestHand from `pokersolver-wrapper.ts` (lines 63-104): with ≤ 5 cards
the input is returned unchanged with its solver description; otherwise all
5-card combinations are evaluated and the first maximal one (stable sort,
head) is returned. -/
def findBestHand (cards : List Card) : BestHand :=
  if cards.length ≤ 5 then
    ⟨cards, descrOfCat (solverEval cards).cat⟩
  else
    match combosK 5 cards with
    | [] => ⟨cards, descrOfCat (solverEval cards).cat⟩
    | c :: cs =>
      let best := foldPick
        (fun x y => decide (evalCmp (solverEval x) (solverEval y) = .gt)) c cs
      ⟨best, descrOfCat (solverEval best).cat⟩

/-- All unordered pairs of a list in the order of the double index loop of
`findTheNuts` (`i < j`, both ascending). -/
def pairs : List α → List (α × α)
  | [] => []
  | a :: rest => rest.map (fun b => (a, b)) ++ pairs rest

/-- The evaluation a hole-card pair achieves against a board: the solver
evaluation of the best 5 cards of board ++ pair — exactly the value
`evaluateHandWithSolver(result.cards)` that `findTheNuts` compares. -/
def nutsEval (community : List Card) (p : Card × Card) : SEval :=
  solverEval (findBestHand (community ++ [p.1, p.2])).cards

/-- Result record of `findTheNuts`.  The source initialises
`bestHoleCards = ['','']` and only overwrites it inside the pair loop; the
empty-strings placeholder (returned when the pool has fewer than 2 cards)
is modelled as `none`. -/
structure NutsResult where
  holeCards : Option (Card × Card)
  description : String
deriving DecidableEq

/-- findTheNuts from `pokersolver-wrapper.ts` (lines 109-144): iterate over
all `i < j` pairs of the pool, keep the first pair, replace it only when
`Hand.winners` declares the new evaluation the sole winner (strict
improvement), and report the final pair with its best-hand description
(`bestHand?.description || 'High Card'`). -/
def findTheNuts (community pool : List Card) : NutsResult :=
  match pairs pool with
  | [] => ⟨none, "High Card"⟩
  | p :: ps =>
    let best := foldPick
      (fun x y => decide (evalCmp (nutsEval community x) (nutsEval community y) = .gt)) p ps
    ⟨some best, (findBestHand (community ++ [best.1, best.2])).description⟩

def Qc : Card := ⟨.rQ, .c⟩
def C3h : Card := ⟨.r3, .h⟩
def C4h : Card := ⟨.r4, .h⟩

/-! ## Seeded PRNG (`random.ts` / `cards.js`) and Fisher-Yates shuffles

The mulberry32 closure keeps `seed` as a JS number and does `seed +=
0x6D2B79F5` on every call; all further uses pass through 32-bit coercions,
so the output word is a function of the state modulo `2^32`.  A draw is the
word divided by 4294967296; as a numerator over `2^53` (the IEEE double
grid) that is `word * 2^21`.
-/

/-- The mulberry32 increment 0x6D2B79F5. -/
def M32C : Nat := 0x6D2B79F5

/-- The output word computed by the mulberry32 body from the (already
incremented) state `x`: `t = x` coerced to 32 bits, `t = imul(t ^ t >>> 15,
t | 1)`, `t ^= t + imul(t ^ t >>> 7, t | 61)`, return `(t ^ t >>> 14) >>> 0`.
Every JS 32-bit coercion is `% 2^32` on the unsigned word. -/
def m32word (x : Nat) : Nat :=
  let t0 := x % 2 ^ 32
  let t1 := (Nat.xor t0 (t0 >>> 15) * (t0 ||| 1)) % 2 ^ 32
  let t2 := Nat.xor t1 ((t1 + (Nat.xor t1 (t1 >>> 7) * (t1 ||| 61)) % 2 ^ 32) % 2 ^ 32)
  Nat.xor t2 (t2 >>> 14)

/-- The n-th output word (0-based) of `mulberry32(seed)`: each call first
increments the closure state by `M32C` and then computes the word. -/
def m32stream (seed : Nat) : Nat → Nat
  | 0 => m32word (seed + M32C)
  | n + 1 => m32stream (seed + M32C) n

/-- The n-th float draw of `mulberry32(seed)`: `word / 4294967296`. -/
def m32draw (seed n : Nat) : ℚ := (m32stream seed n : ℚ) / 4294967296

/-- Fisher-Yates index: `Math.floor(r * n)` for a draw with numerator `m`
over `2^53` is exactly `m * n / 2^53`. -/
def jIndex (m n : Nat) : Nat := m * n / 2 ^ 53

/-- The JS destructuring swap `[l[i], l[j]] = [l[j], l[i]]` (identity when an
index is out of range). -/
def swapAt (l : List α) (i j : Nat) : List α :=
  match l[i]?, l[j]? with
  | some a, some b => (l.set i b).set j a
  | _, _ => l

/-- The Fisher-Yates loop `for (i = len-1; i > 0; i--) { j = floor(draw *
(i+1)); swap i j }`, parametric in the draw source (`draw` returns the
numerator of the next value over `2^53` and the next generator state). -/
def fyAux (draw : σ → Nat × σ) : Nat → List α → σ → List α × σ
  | 0, l, st => (l, st)
  | k + 1, l, st =>
    let d := draw st
    fyAux draw k (swapAt l (k + 1) (jIndex d.1 (k + 2))) d.2

/-- shuffleArray from `random.ts` (lines 97-104): copies the input
(`[...array]`) and shuffles the copy, drawing from the current generator
(modelled as a numerator stream `u` with position `pos`); the caller's array
is untouched. -/
def shuffleArray (l : List α) (u : Nat → Nat) (pos : Nat) : List α × Nat :=
  fyAux (fun p => (u p, p + 1)) (l.length - 1) l pos

/-- shuffleArray from the legacy `cards.js` (lines 272-278): the same
Fisher-Yates loop but run IN PLACE on the argument ("Shuffled array
(mutates original)" per its doc comment) — the returned list is also the
final content of the caller's array. -/
def shuffleArrayInPlace (l : List α) (u : Nat → Nat) (pos : Nat) : List α × Nat :=
  fyAux (fun p => (u p, p + 1)) (l.length - 1) l pos

/-- shuffleDeck from `lib/cards.ts` with the default `seed = null`: copies
the deck and shuffles with `Math.random` — NOT with the globally seeded
generator.  Draws come from the ambient stream `u` at position `pos`. -/
def shuffleDeck (deck : List α) (u : Nat → Nat) (pos : Nat) : List α × Nat :=
  fyAux (fun p => (u p, p + 1)) (deck.length - 1) deck pos

/-- One draw of a seeded mulberry32 generator in closure-state form: the
word over `2^32` becomes the numerator `word * 2^21` over `2^53`. -/
def mulberryDraw (st : Nat) : Nat × Nat :=
  (m32word (st + M32C) * 2 ^ 21, st + M32C)

/-- shuffleArray from `random.ts` when the global random state holds a
seeded generator with closure state `g` (after `setSeed`). -/
def shuffleArraySeeded (l : List α) (g : Nat) : List α × Nat :=
  fyAux mulberryDraw (l.length - 1) l g

/-! ## Scenario generation (`TheNuts.ts` / `dist/games/advanced/TheNuts.js`)

`generateLevel1Scenario` shuffles the deck with `shuffleDeck(deck)` — the
seed parameter is omitted, so the board comes from `Math.random` (ambient
stream `u`) even when `BaseGame.initialize` has installed a seeded generator
via `setSeed`; only `shuffleArray(choices)` (from `random.ts`) consumes the
seeded mulberry32 stream `g`.  Display-only fields of a choice (`display`,
`hint`, HTML strings from `formatHoleCards`) are omitted from the model.
-/

/-- generateDeck from `lib/cards.ts` (unshuffled, as called by
`generateScenarios`): ranks outer, suits inner. -/
def generateDeck : List Card :=
  RANKS.flatMap (fun r => SUITS.map (fun su => ⟨r, su⟩))

/-- Does `pat` occur at the start of `txt`? -/
def startsW : List Char → List Char → Bool
  | [], _ => true
  | _ :: _, [] => false
  | c :: cs, d :: ds => decide (c = d) && startsW cs ds

/-- JS `String.includes`: does `pat` occur contiguously inside `txt`? -/
def hasSubstr : List Char → List Char → Bool
  | [], pat => startsW pat []
  | c :: t2, pat => startsW pat (c :: t2) || hasSubstr t2 pat

/-- `description.toLowerCase().includes(pat)` for an (already lowercase)
pattern. -/
def strIncludes (hay pat : String) : Bool :=
  hasSubstr (hay.toList.map Char.toLower) pat.toList

/-- estimateHandStrength from `TheNuts.ts`: substring checks on the
lowercased description, in source order. -/
def estimateHandStrength (descr : String) : Nat :=
  if strIncludes descr "straight flush" then 99
  else if strIncludes descr "four of a kind" then 95
  else if strIncludes descr "full house" then 90
  else if strIncludes descr "flush" then 85
  else if strIncludes descr "straight" then 80
  else if strIncludes descr "three of a kind" then 70
  else if strIncludes descr "two pair" then 60
  else if strIncludes descr "pair" then 40
  else 20

/-- A quiz choice (display-only fields omitted): its id, its hole cards
(`none` models the `undefined` entries a too-small pool would produce) and
the `handStrength` label. -/
structure Choice where
  id : String
  holeCards : Option (Card × Card)
  handStrength : Nat
deriving DecidableEq

/-- The two cards of a choice's hole-card pair (empty for `none`). -/
def choiceCardsOf : Option (Card × Card) → List Card
  | some pr => [pr.1, pr.2]
  | none => []

/-- The `availableCards` filter of generateDecoyHand: pool cards not used by
any earlier choice (`!usedHoleCards.some(used => used.includes(card))`). -/
def decoyAvailable (pool : List Card) (used : List (Option (Card × Card))) :
    List Card :=
  pool.filter (fun c => !(decide (c ∈ used.flatMap choiceCardsOf)))

/-- The candidate loop of generateDecoyHand: all `i < j` pairs within the
first 21 available cards (`i < min(len-1, 20)`, `j < min(len, 21)`), each
with its best-hand description and estimated strength. -/
def decoyCandidates (community pool : List Card)
    (used : List (Option (Card × Card))) : List ((Card × Card) × String × Nat) :=
  (pairs ((decoyAvailable pool used).take 21)).map (fun p =>
    let bh := findBestHand (community ++ [p.1, p.2])
    (p, bh.description, estimateHandStrength bh.description))

/-- generateDecoyHand from `TheNuts.ts` (dist lines 182-222): sort the
candidates by distance of their estimated strength from the target (stable,
so the first minimal candidate wins) and return it; `candidates[0] || {...}`
falls back to the first two available cards (`undefined`, modelled `none`,
when fewer than 2 remain) with description 'High Card'. -/
def generateDecoyHand (community pool : List Card) (target : Nat)
    (used : List (Option (Card × Card))) : Option (Card × Card) × String :=
  match decoyCandidates community pool used with
  | [] =>
    (match decoyAvailable pool used with
     | a :: b :: _ => some (a, b)
     | _ => none, "High Card")
  | c :: cs =>
    let sel := foldPick (fun x y =>
      decide (Int.natAbs ((x.2.2 : Int) - (target : Int)) <
        Int.natAbs ((y.2.2 : Int) - (target : Int)))) c cs
    (some sel.1, sel.2.1)

/-- A generated scenario: board (the first five shuffled cards; the source
splits them into flop/turn/river for display), shuffled choice list and the
correct-answer key `nuts.holeCards.join(',')`. -/
structure Scenario where
  id : String
  communityCards : List Card
  choices : List Choice
  correctAnswer : String
deriving DecidableEq

/-- One iteration of the decoy loop of generateLevel1Scenario: append the
decoy for `target`, excluding the hole cards of all earlier choices. -/
def level1Step (community remaining : List Card) (chs : List Choice)
    (target : Nat) : List Choice :=
  chs ++ [⟨"decoy-" ++ toString target,
    (generateDecoyHand community remaining target
      (chs.map (fun ch => ch.holeCards))).1, target⟩]

/-- The choice list built by generateLevel1Scenario before shuffling: the
nuts choice then one decoy per target 70, 40, 10, each excluding all earlier
choices' hole cards. -/
def level1Choices (community remaining : List Card) : List Choice :=
  [70, 40, 10].foldl (level1Step community remaining)
    [⟨"nuts", (findTheNuts community remaining).holeCards, 100⟩]

/-- All hole cards across a choice list (the multiset the no-duplicates
invariant is about). -/
def choicesCards (chs : List Choice) : List Card :=
  chs.flatMap (fun ch => choiceCardsOf ch.holeCards)

/-- generateLevel1Scenario from `TheNuts.ts` (dist lines 61-101): shuffle the
deck with `shuffleDeck(deck)` — NO seed argument, hence with `Math.random`
(ambient numerator stream `u` at position `pos`) — take 5 board cards, find
the nuts on the remaining 47, build the choice list, and shuffle it with the
seeded `shuffleArray` (mulberry32 closure state `g`).  Returns the scenario
together with the advanced ambient position and generator state. -/
def generateLevel1Scenario (deck : List Card) (roundNum : Nat)
    (u : Nat → Nat) (pos g : Nat) : Scenario × Nat × Nat :=
  let sd := shuffleDeck deck u pos
  let community := sd.1.take 5
  let remaining := sd.1.drop 5
  let sc := shuffleArraySeeded (level1Choices community remaining) g
  (⟨"level1-round-" ++ toString roundNum, community, sc.1,
    match (findTheNuts community remaining).holeCards with
    | some pr => cardStr pr.1 ++ "," ++ cardStr pr.2
    | none => ","⟩, sd.2, sc.2)

/-! ## Order properties of the modelled comparator -/

theorem listCmp_eq_iff (u v : List Nat) : listCmp u v = .eq ↔ u = v := by
  induction u generalizing v with
  | nil => cases v <;> simp [listCmp]
  | cons a as ih =>
    cases v with
    | nil => simp [listCmp]
    | cons b bs =>
      simp only [listCmp]
      cases h : compare a b with
      | eq =>
        have hab := Nat.compare_eq_eq.mp h
        subst hab
        simp [ih]
      | lt =>
        have hlt := Nat.compare_eq_lt.mp h
        simp [Nat.ne_of_lt hlt]
      | gt =>
        have hgt := Nat.compare_eq_gt.mp h
        simp [(Nat.ne_of_lt hgt).symm]

theorem listCmp_swap (u v : List Nat) : listCmp v u = (listCmp u v).swap := by
  induction u generalizing v with
  | nil => cases v <;> simp [listCmp, Ordering.swap]
  | cons a as ih =>
    cases v with
    | nil => simp [listCmp, Ordering.swap]
    | cons b bs =>
      simp only [listCmp]
      cases h : compare a b with
      | eq =>
        have hab := Nat.compare_eq_eq.mp h
        subst hab
        rw [Nat.compare_eq_eq.mpr rfl]
        exact ih bs
      | lt =>
        rw [Nat.compare_eq_gt.mpr (Nat.compare_eq_lt.mp h)]
        rfl
      | gt =>
        rw [Nat.compare_eq_lt.mpr (Nat.compare_eq_gt.mp h)]
        rfl

theorem listCmp_lt_trans {u v w : List Nat} (h1 : listCmp u v = .lt)
    (h2 : listCmp v w = .lt) : listCmp u w = .lt := by
  induction u generalizing v w with
  | nil =>
    cases v with
    | nil => simp [listCmp] at h1
    | cons b bs =>
      cases w with
      | nil => simp [listCmp] at h2
      | cons c cs => simp [listCmp]
  | cons a as ih =>
    cases v with
    | nil => simp [listCmp] at h1
    | cons b bs =>
      cases w with
      | nil => simp [listCmp] at h2
      | cons c cs =>
        simp only [listCmp] at h1 h2 ⊢
        cases hab : compare a b with
        | eq =>
          have hb := Nat.compare_eq_eq.mp hab
          subst hb
          rw [hab] at h1
          cases hbc : compare a c with
          | eq =>
            have hc := Nat.compare_eq_eq.mp hbc
            subst hc
            rw [hbc] at h2
            exact ih h1 h2
          | lt => rfl
          | gt =>
            rw [hbc] at h2
            exact Ordering.noConfusion h2
        | lt =>
          have hlt := Nat.compare_eq_lt.mp hab
          cases hbc : compare b c with
          | eq =>
            have hc := Nat.compare_eq_eq.mp hbc
            subst hc
            rw [Nat.compare_eq_lt.mpr hlt]
          | lt =>
            have hlt2 := Nat.compare_eq_lt.mp hbc
            rw [Nat.compare_eq_lt.mpr (Nat.lt_trans hlt hlt2)]
          | gt =>
            rw [hbc] at h2
            exact Ordering.noConfusion h2
        | gt =>
          rw [hab] at h1
          exact Ordering.noConfusion h1

theorem evalCmp_eq_iff (u v : SEval) : evalCmp u v = .eq ↔ u = v := by
  cases u with
  | mk uc ut =>
    cases v with
    | mk vc vt => simp [evalCmp, listCmp_eq_iff, SEval.mk.injEq]

theorem evalCmp_swap (u v : SEval) : evalCmp v u = (evalCmp u v).swap :=
  listCmp_swap _ _

theorem evalCmp_gt_iff (u v : SEval) : evalCmp u v = .gt ↔ evalCmp v u = .lt := by
  rw [evalCmp_swap v u]
  cases evalCmp v u <;> simp [Ordering.swap]

theorem evalCmp_lt_trans {u v w : SEval} (h1 : evalCmp u v = .lt)
    (h2 : evalCmp v w = .lt) : evalCmp u w = .lt :=
  listCmp_lt_trans h1 h2

theorem evalCmp_lt_or_eq_of_not_gt {u v : SEval} (h : evalCmp u v ≠ .gt) :
    evalCmp u v = .lt ∨ u = v := by
  cases hc : evalCmp u v with
  | lt => exact Or.inl rfl
  | eq => exact Or.inr ((evalCmp_eq_iff u v).mp hc)
  | gt => exact absurd hc h

theorem evalCmp_lt_of_lt_of_not_gt {u v w : SEval} (h1 : evalCmp u v = .lt)
    (h2 : evalCmp v w ≠ .gt) : evalCmp u w = .lt := by
  rcases evalCmp_lt_or_eq_of_not_gt h2 with h | h
  · exact evalCmp_lt_trans h1 h
  · rwa [h] at h1

theorem evalCmp_not_gt_trans {u v w : SEval} (h1 : evalCmp u v ≠ .gt)
    (h2 : evalCmp v w ≠ .gt) : evalCmp u w ≠ .gt := by
  rcases evalCmp_lt_or_eq_of_not_gt h1 with h | h
  · rw [evalCmp_lt_of_lt_of_not_gt h h2]
    simp
  · rwa [h]

theorem evalCmp_self_ne_gt (u : SEval) : evalCmp u u ≠ .gt := by
  rw [(evalCmp_eq_iff u u).mpr rfl]
  simp

/-! ## Properties of the first-maximum fold -/

theorem foldPick_cons (better : α → α → Bool) (b a : α) (t : List α) :
    foldPick better b (a :: t) = foldPick better (if better a b then a else b) t := by
  simp [foldPick]

theorem foldPick_mem (better : α → α → Bool) (b : α) (l : List α) :
    foldPick better b l ∈ b :: l := by
  induction l generalizing b with
  | nil => simp [foldPick]
  | cons a t ih =>
    rw [foldPick_cons]
    by_cases h : better a b = true
    · rw [if_pos h]
      rcases List.mem_cons.mp (ih a) with hm | hm
      · rw [hm]
        exact List.mem_cons_of_mem b (List.mem_cons_self a t)
      · exact List.mem_cons_of_mem b (List.mem_cons_of_mem a hm)
    · rw [if_neg h]
      rcases List.mem_cons.mp (ih b) with hm | hm
      · rw [hm]
        exact List.mem_cons_self b (a :: t)
      · exact List.mem_cons_of_mem b (List.mem_cons_of_mem a hm)

theorem foldPick_not_gt (f : α → SEval) (b : α) (l : List α) :
    ∀ y, y ∈ b :: l →
      evalCmp (f y)
        (f (foldPick (fun x z => decide (evalCmp (f x) (f z) = .gt)) b l)) ≠ .gt := by
  induction l generalizing b with
  | nil =>
    intro y hy
    rcases List.mem_cons.mp hy with hd | hm
    · rw [hd]
      simp only [foldPick, List.foldl_nil]
      exact evalCmp_self_ne_gt (f b)
    · simp at hm
  | cons a t ih =>
    intro y hy
    rw [foldPick_cons]
    by_cases h : evalCmp (f a) (f b) = .gt
    · rw [if_pos (decide_eq_true h)]
      have hub := ih a a (List.mem_cons_self a t)
      rcases List.mem_cons.mp hy with hd | hm
      · have hba : evalCmp (f y) (f a) = .lt := by
          rw [hd]
          exact (evalCmp_gt_iff _ _).mp h
        rw [evalCmp_lt_of_lt_of_not_gt hba hub]
        simp
      · exact ih a y hm
    · rw [if_neg (fun hc => h (of_decide_eq_true hc))]
      rcases List.mem_cons.mp hy with hd | hm
      · rw [hd]
        exact ih b b (List.mem_cons_self b t)
      · rcases List.mem_cons.mp hm with hd2 | hm2
        · rw [hd2]
          exact evalCmp_not_gt_trans h (ih b b (List.mem_cons_self b t))
        · exact ih b y (List.mem_cons_of_mem b hm2)

theorem foldPick_first (f : α → SEval) (b : α) (l : List α) :
    ∃ i, (b :: l)[i]? =
        some (foldPick (fun x z => decide (evalCmp (f x) (f z) = .gt)) b l) ∧
      ∀ y, y ∈ (b :: l).take i →
        evalCmp (f y)
          (f (foldPick (fun x z => decide (evalCmp (f x) (f z) = .gt)) b l)) = .lt := by
  induction l generalizing b with
  | nil =>
    refine ⟨0, by simp [foldPick], ?_⟩
    intro y hy
    simp at hy
  | cons a t ih =>
    rw [foldPick_cons]
    by_cases h : evalCmp (f a) (f b) = .gt
    · rw [if_pos (decide_eq_true h)]
      rcases ih a with ⟨i, hget, hpre⟩
      have hub := foldPick_not_gt f a t a (List.mem_cons_self a t)
      refine ⟨i + 1, by simpa using hget, ?_⟩
      intro y hy
      rw [List.take_succ_cons] at hy
      rcases List.mem_cons.mp hy with hd | hm
      · have hba : evalCmp (f y) (f a) = .lt := by
          rw [hd]
          exact (evalCmp_gt_iff _ _).mp h
        exact evalCmp_lt_of_lt_of_not_gt hba hub
      · exact hpre y hm
    · rw [if_neg (fun hc => h (of_decide_eq_true hc))]
      rcases ih b with ⟨i, hget, hpre⟩
      cases i with
      | zero =>
        refine ⟨0, by simpa using hget, ?_⟩
        intro y hy
        simp at hy
      | succ k =>
        simp only [List.getElem?_cons_succ] at hget
        refine ⟨k + 2, by simpa using hget, ?_⟩
        intro y hy
        simp only [List.take_succ_cons] at hy
        have hbpre : b ∈ (b :: t).take (k + 1) := by
          rw [List.take_succ_cons]
          exact List.mem_cons_self b (t.take k)
        rcases List.mem_cons.mp hy with hd | hm
        · rw [hd]
          exact hpre b hbpre
        · rcases List.mem_cons.mp hm with hd2 | hm2
          · have hblt := hpre b hbpre
            rcases evalCmp_lt_or_eq_of_not_gt h with hab | hab
            · rw [hd2]
              exact evalCmp_lt_trans hab hblt
            · rw [hd2, hab]
              exact hblt
          · have hmem : y ∈ (b :: t).take (k + 1) := by
              rw [List.take_succ_cons]
              exact List.mem_cons_of_mem b hm2
            exact hpre y hmem

theorem pairs_ne_nil {l : List α} (h : 2 ≤ l.length) : pairs l ≠ [] := by
  match l, h with
  | a :: b :: t, _ => simp [pairs]

theorem pairs_eq_nil {l : List α} (h : l.length < 2) : pairs l = [] := by
  match l, h with
  | [], _ => rfl
  | [a], _ => rfl

theorem pairs_mem {l : List α} {p : α × α} (hp : p ∈ pairs l) :
    p.1 ∈ l ∧ p.2 ∈ l := by
  induction l with
  | nil => simp [pairs] at hp
  | cons a t ih =>
    simp only [pairs, List.mem_append, List.mem_map] at hp
    rcases hp with ⟨b, hb, hpeq⟩ | hp
    · subst hpeq
      exact ⟨List.mem_cons_self a t, List.mem_cons_of_mem a hb⟩
    · rcases ih hp with ⟨h1, h2⟩
      exact ⟨List.mem_cons_of_mem a h1, List.mem_cons_of_mem a h2⟩

theorem pairs_ne {l : List α} (hnd : l.Nodup) {p : α × α} (hp : p ∈ pairs l) :
    p.1 ≠ p.2 := by
  induction l with
  | nil => simp [pairs] at hp
  | cons a t ih =>
    rw [List.nodup_cons] at hnd
    simp only [pairs, List.mem_append, List.mem_map] at hp
    rcases hp with ⟨b, hb, hpeq⟩ | hp
    · subst hpeq
      intro hc
      simp only at hc
      exact hnd.1 (by rw [hc]; exact hb)
    · exact ih hnd.2 hp

/-! ## Helper equations for the claim theorems -/

theorem findTheNuts_eq_of_pairs_cons (B P : List Card) (p : Card × Card)
    (ps : List (Card × Card)) (h : pairs P = p :: ps) :
    findTheNuts B P =
      ⟨some (foldPick
          (fun x y => decide (evalCmp (nutsEval B x) (nutsEval B y) = .gt)) p ps),
        (findBestHand (B ++
          [(foldPick
            (fun x y => decide (evalCmp (nutsEval B x) (nutsEval B y) = .gt)) p ps).1,
           (foldPick
            (fun x y => decide (evalCmp (nutsEval B x) (nutsEval B y) = .gt)) p ps).2])).description⟩ := by
  unfold findTheNuts
  rw [h]

theorem evaluateHand_rank_seven_iff (cs : List Card) :
    (evaluateHand cs).rank = 7 ↔ (evaluateHand cs).name = .fullHouse := by
  unfold evaluateHand
  repeat' split
  all_goals simp

/-- C1: for every 5-card board and pool of at least 2 distinct cards, the
hole-card pair returned by findTheNuts, evaluated via best-hand search
together with the board, is ≥ (under the solver comparator) the evaluation
of every other 2-card combination from the pool, and on ties the returned
pair is the first one in the enumeration order over the pool (every earlier
pair is strictly worse). -/
theorem c1_findTheNuts_maximal (B P : List Card) (hB : B.length = 5)
    (hP : 2 ≤ P.length) (hnd : P.Nodup) :
    ∃ pr, (findTheNuts B P).holeCards = some pr ∧
      (∀ q, q ∈ pairs P → evalCmp (nutsEval B q) (nutsEval B pr) ≠ .gt) ∧
      ∃ i, (pairs P)[i]? = some pr ∧
        ∀ q, q ∈ (pairs P).take i → evalCmp (nutsEval B q) (nutsEval B pr) = .lt := by
  rcases hpp : pairs P with _ | ⟨p, ps⟩
  · exact absurd hpp (pairs_ne_nil hP)
  · refine ⟨foldPick
      (fun x y => decide (evalCmp (nutsEval B x) (nutsEval B y) = .gt)) p ps,
      ?_, ?_, ?_⟩
    · rw [findTheNuts_eq_of_pairs_cons B P p ps hpp]
    · exact foldPick_not_gt (nutsEval B) p ps
    · exact foldPick_first (nutsEval B) p ps

theorem c1_witness :
    ([C2h, C3d, C4c, C5s, Kh].length = 5 ∧ 2 ≤ [Ah, Ad, Kd].length ∧
      [Ah, Ad, Kd].Nodup) ∧
    (∃ pr, (findTheNuts [C2h, C3d, C4c, C5s, Kh] [Ah, Ad, Kd]).holeCards = some pr ∧
      (∀ q, q ∈ pairs [Ah, Ad, Kd] →
        evalCmp (nutsEval [C2h, C3d, C4c, C5s, Kh] q)
          (nutsEval [C2h, C3d, C4c, C5s, Kh] pr) ≠ .gt) ∧
      ∃ i, (pairs [Ah, Ad, Kd])[i]? = some pr ∧
        ∀ q, q ∈ (pairs [Ah, Ad, Kd]).take i →
          evalCmp (nutsEval [C2h, C3d, C4c, C5s, Kh] q)
            (nutsEval [C2h, C3d, C4c, C5s, Kh] pr) = .lt) :=
  ⟨⟨by decide, by decide, by decide⟩,
    c1_findTheNuts_maximal [C2h, C3d, C4c, C5s, Kh] [Ah, Ad, Kd]
      (by decide) (by decide) (by decide)⟩

/-- C3 counterexample: on the 6 distinct cards Kh Kd Ks Qh Qd Qs,
evaluateHand reports Three of a Kind while the best 5-card subset found by
the exhaustive best-hand search evaluates to Full House — evaluateHand does
not delegate to best-hand search and returns a different category. -/
theorem c3_counterexample :
    (evaluateHand [Kh, Kd, Ks, Qh, Qd, Qs]).name = .threeOfAKind ∧
    descrOfCat (solverEval (findBestHand [Kh, Kd, Ks, Qh, Qd, Qs]).cards).cat =
      "Full House" ∧
    (evaluateHand [Kh, Kd, Ks, Qh, Qd, Qs]).rank ≠
      (solverEval (findBestHand [Kh, Kd, Ks, Qh, Qd, Qs]).cards).cat := by
  decide

/-- C3 (amended): evaluateHand classifies 6-7 card inputs directly over the
whole card set and does not delegate to best-hand search; its category can
be strictly below the best 5-card subset's category (two trips → Three of a
Kind vs Full House) and also strictly above it (a non-royal straight flush
plus any off-suit Ace → Royal Flush vs Straight Flush). -/
theorem c3_amended :
    ((evaluateHand [Kh, Kd, Ks, Qh, Qd, Qs]).name = .threeOfAKind ∧
      (solverEval (findBestHand [Kh, Kd, Ks, Qh, Qd, Qs]).cards).cat = 7) ∧
    ((evaluateHand [C2h, C3h, C4h, C5h, C6h, Ad]).name = .royalFlush ∧
      (solverEval (findBestHand [C2h, C3h, C4h, C5h, C6h, Ad]).cards).cat = 9) := by
  decide

/-- C4: evaluateHand does categorise the wheel A-2-3-4-5 as a Straight, but
in compareHands the wheel's Ace is counted high (value 14) in the positional
comparison, so the wheel BEATS the 6-high straight 2-3-4-5-6 with result 8
(= 14 - 6) instead of losing to it as the claim (and poker rules) state. -/
theorem c4_wheel_eval_and_compare :
    (evaluateHand [Ah, C2d, C3c, C4s, C5h]).name = .straight ∧
    compareHands [Ah, C2d, C3c, C4s, C5h] [C2h, C3d, C4c, C5s, C6h] = 8 := by
  decide

/-- C5 counterexample: a pool of fewer than 2 cards does not make
findTheNuts fail with an InsufficientCards error (no such error exists in
the code); it returns the placeholder result — no hole cards (source:
`['','']`) and description "High Card".  Likewise findBestHand with fewer
than 5 cards returns the input cards with a description instead of failing. -/
theorem c5_counterexample :
    findTheNuts [C2h, C3d, C4c, C5s, Kh] [Ah] = ⟨none, "High Card"⟩ ∧
    (findBestHand [Ah, Kd]).cards = [Ah, Kd] := by
  decide

/-- C5 (amended): neither function fails on short input: for every pool with
fewer than 2 cards findTheNuts returns the placeholder ⟨none, "High Card"⟩
(the source's `['','']` hole cards), and for every input of at most 5 cards
findBestHand returns the input cards unchanged together with a description. -/
theorem c5_amended (board pool : List Card) (hpool : pool.length < 2)
    (cards : List Card) (hc : cards.length ≤ 5) :
    findTheNuts board pool = ⟨none, "High Card"⟩ ∧
    (findBestHand cards).cards = cards := by
  constructor
  · unfold findTheNuts
    rw [pairs_eq_nil hpool]
  · unfold findBestHand
    rw [if_pos hc]

theorem c5_witness :
    ([Ah].length < 2 ∧ [Ah, Kd].length ≤ 5) ∧
    (findTheNuts [C2h, C3d, C4c, C5s, Kh] [Ah] = ⟨none, "High Card"⟩ ∧
      (findBestHand [Ah, Kd]).cards = [Ah, Kd]) :=
  ⟨⟨by decide, by decide⟩,
    c5_amended [C2h, C3d, C4c, C5s, Kh] [Ah] (by decide) [Ah, Kd] (by decide)⟩

/-- C6: for two hands that both evaluate to Full House, compareHands
compares the trip ranks first, and only on equal trip ranks compares the
pair ranks (so Kings-full-of-twos beats Queens-full-of-aces: see the
witness, where the result is 13 - 12 = 1 > 0). -/
theorem c6_full_house_compare (h1 h2 : List Card)
    (H1 : (evaluateHand h1).name = .fullHouse)
    (H2 : (evaluateHand h2).name = .fullHouse) :
    (getRankValue ((getThreeOfAKinds h1).headD .r2) ≠
        getRankValue ((getThreeOfAKinds h2).headD .r2) →
      compareHands h1 h2 =
        (getRankValue ((getThreeOfAKinds h1).headD .r2) : Int) -
          getRankValue ((getThreeOfAKinds h2).headD .r2)) ∧
    (getRankValue ((getThreeOfAKinds h1).headD .r2) =
        getRankValue ((getThreeOfAKinds h2).headD .r2) →
      compareHands h1 h2 =
        (getRankValue ((getPairs h1).headD .r2) : Int) -
          getRankValue ((getPairs h2).headD .r2)) := by
  have R1 := (evaluateHand_rank_seven_iff h1).mpr H1
  have R2 := (evaluateHand_rank_seven_iff h2).mpr H2
  unfold compareHands
  simp only [R1, R2, H1, ne_eq, not_true_eq_false, if_false]
  constructor
  · intro hne
    have hz : (getRankValue ((getThreeOfAKinds h1).headD .r2) : Int) -
        getRankValue ((getThreeOfAKinds h2).headD .r2) ≠ 0 := by
      rw [sub_ne_zero]
      exact_mod_cast hne
    rw [if_pos hz]
  · intro heq
    have hz : ¬ ((getRankValue ((getThreeOfAKinds h1).headD .r2) : Int) -
        getRankValue ((getThreeOfAKinds h2).headD .r2) ≠ 0) := by
      rw [not_ne_iff, sub_eq_zero]
      exact_mod_cast heq
    rw [if_neg hz]

theorem c6_witness :
    ((evaluateHand [Kh, Kd, Ks, C2c, C2d]).name = .fullHouse ∧
      (evaluateHand [Qh, Qd, Qs, Ah, Ad]).name = .fullHouse ∧
      getRankValue ((getThreeOfAKinds [Kh, Kd, Ks, C2c, C2d]).headD .r2) ≠
        getRankValue ((getThreeOfAKinds [Qh, Qd, Qs, Ah, Ad]).headD .r2)) ∧
    compareHands [Kh, Kd, Ks, C2c, C2d] [Qh, Qd, Qs, Ah, Ad] =
      (getRankValue ((getThreeOfAKinds [Kh, Kd, Ks, C2c, C2d]).headD .r2) : Int) -
        getRankValue ((getThreeOfAKinds [Qh, Qd, Qs, Ah, Ad]).headD .r2) :=
  ⟨⟨by decide, by decide, by decide⟩,
    (c6_full_house_compare [Kh, Kd, Ks, C2c, C2d] [Qh, Qd, Qs, Ah, Ad]
      (by decide) (by decide)).1 (by decide)⟩

/-- C10: evaluateHand is total on short input: for every list of fewer than
5 cards it returns High Card with rank 1 and the input cards echoed back in
canonical string form, regardless of ranks and suits. -/
theorem c10_evaluateHand_short (cs : List Card) (h : cs.length < 5) :
    evaluateHand cs = ⟨.highCard, 1, cs.map cardStr⟩ := by
  unfold evaluateHand
  rw [if_pos h]

theorem c10_witness :
    ([Ah, Kd].length < 5) ∧
    evaluateHand [Ah, Kd] = ⟨.highCard, 1, [Ah, Kd].map cardStr⟩ :=
  ⟨by decide, c10_evaluateHand_short [Ah, Kd] (by decide)⟩

/-! ### Permutation and consumption lemmas for the shuffles -/

theorem set_head_perm (t : List α) (m : Nat) (a b : α) (h : t[m]? = some b) :
    List.Perm (b :: t.set m a) (a :: t) := by
  induction t generalizing m with
  | nil => simp at h
  | cons c t2 ih =>
    cases m with
    | zero =>
      have hc : c = b := by simpa using h
      rw [← hc, List.set_cons_zero]
      exact List.Perm.swap a c t2
    | succ m2 =>
      simp only [List.getElem?_cons_succ] at h
      have step1 : List.Perm (b :: c :: t2.set m2 a) (c :: b :: t2.set m2 a) :=
        List.Perm.swap c b _
      have step2 : List.Perm (c :: b :: t2.set m2 a) (c :: a :: t2) :=
        (ih m2 h).cons c
      have step3 : List.Perm (c :: a :: t2) (a :: c :: t2) :=
        List.Perm.swap a c t2
      exact (step1.trans step2).trans step3

theorem set_set_swap_perm (l : List α) (i j : Nat) (a b : α)
    (hi : l[i]? = some a) (hj : l[j]? = some b) :
    List.Perm ((l.set i b).set j a) l := by
  induction l generalizing i j with
  | nil => simp at hi
  | cons c t ih =>
    cases i with
    | zero =>
      have hca : c = a := by simpa using hi
      subst hca
      cases j with
      | zero =>
        have hcb : c = b := by simpa using hj
        subst hcb
        simp [List.set_cons_zero]
      | succ j2 =>
        simp only [List.getElem?_cons_succ] at hj
        rw [List.set_cons_zero]
        show List.Perm ((b :: t).set (j2 + 1) c) (c :: t)
        show List.Perm (b :: t.set j2 c) (c :: t)
        exact set_head_perm t j2 c b hj
    | succ i2 =>
      simp only [List.getElem?_cons_succ] at hi
      cases j with
      | zero =>
        have hcb : c = b := by simpa using hj
        subst hcb
        show List.Perm (((c :: t).set (i2 + 1) c).set 0 a) (c :: t)
        show List.Perm ((c :: t.set i2 c).set 0 a) (c :: t)
        rw [List.set_cons_zero]
        exact set_head_perm t i2 c a hi
      | succ j2 =>
        simp only [List.getElem?_cons_succ] at hj
        show List.Perm (c :: (t.set i2 b).set j2 a) (c :: t)
        exact (ih i2 j2 hi hj).cons c

theorem swapAt_perm (l : List α) (i j : Nat) : List.Perm (swapAt l i j) l := by
  unfold swapAt
  cases hi : l[i]? with
  | none => exact List.Perm.refl l
  | some a =>
    cases hj : l[j]? with
    | none => exact List.Perm.refl l
    | some b => exact set_set_swap_perm l i j a b hi hj

theorem fyAux_perm (draw : σ → Nat × σ) (k : Nat) (l : List α) (st : σ) :
    List.Perm (fyAux draw k l st).1 l := by
  induction k generalizing l st with
  | zero => exact List.Perm.refl l
  | succ k2 ih =>
    exact (ih _ _).trans (swapAt_perm l (k2 + 1) _)

theorem fyAux_pos (u : Nat → Nat) (k : Nat) (l : List α) (p : Nat) :
    (fyAux (fun q => (u q, q + 1)) k l p).2 = p + k := by
  induction k generalizing l p with
  | zero => rfl
  | succ k2 ih =>
    show (fyAux (fun q => (u q, q + 1)) k2 _ (p + 1)).2 = p + (k2 + 1)
    rw [ih]
    omega

/-- C7 (amended): both cited Fisher-Yates implementations return a
permutation of the input (no duplicates or omissions) and consume exactly
len - 1 draws from the generator stream; the `random.ts` version copies its
input first, so the caller's array is untouched, while the legacy `cards.js`
shuffleArray runs the same loop in place, so the caller's array afterwards
holds the returned permutation (it IS mutated, as its own doc comment says). -/
theorem c7_shuffle_perm_and_draws (α : Type) (l1 l2 : List α) (u : Nat → Nat)
    (p1 p2 : Nat) :
    (List.Perm (shuffleArray l1 u p1).1 l1 ∧
      (shuffleArray l1 u p1).2 = p1 + (l1.length - 1)) ∧
    (List.Perm (shuffleArrayInPlace l2 u p2).1 l2 ∧
      (shuffleArrayInPlace l2 u p2).2 = p2 + (l2.length - 1)) :=
  ⟨⟨fyAux_perm _ _ l1 p1, fyAux_pos u _ l1 p1⟩,
    ⟨fyAux_perm _ _ l2 p2, fyAux_pos u _ l2 p2⟩⟩

/-- C7 counterexample: the legacy cards.js shuffleArray mutates its input:
it swaps in place and returns the same array object, so after the call (here
with first draw 0, i.e. numerator 0) the caller's array [0, 1] holds the
returned [1, 0] ≠ [0, 1] — "never mutates the input sequence" fails for
this cited implementation. -/
theorem c7_counterexample :
    (shuffleArrayInPlace [0, 1] (fun _ => 0) 0).1 ≠ [0, 1] := by decide

theorem m32word_lt (x : Nat) : m32word x < 2 ^ 32 := by
  have hshift : ∀ a k : Nat, a >>> k ≤ a := fun a k => by
    rw [Nat.shiftRight_eq_div_pow]
    exact Nat.div_le_self a (2 ^ k)
  have hmod : ∀ a : Nat, a % 2 ^ 32 < 2 ^ 32 := fun a => Nat.mod_lt _ (by norm_num)
  simp only [m32word]
  exact Nat.xor_lt_two_pow
    (Nat.xor_lt_two_pow (hmod _) (hmod _))
    (Nat.lt_of_le_of_lt (hshift _ _) (Nat.xor_lt_two_pow (hmod _) (hmod _)))

theorem m32word_congr (x y : Nat) (h : x % 2 ^ 32 = y % 2 ^ 32) :
    m32word x = m32word y := by
  unfold m32word
  rw [h]

theorem m32stream_closed_form (seed n : Nat) :
    m32stream seed n = m32word (seed + (n + 1) * M32C) := by
  induction n generalizing seed with
  | zero => rw [show seed + (0 + 1) * M32C = seed + M32C by ring]; rfl
  | succ n2 ih =>
    show m32stream (seed + M32C) n2 = _
    rw [ih]
    congr 1
    ring

/-- C8: mulberry32 is a deterministic pure stream of its seed — the n-th
draw has the closed form `m32word (seed + (n+1) * 0x6D2B79F5)`, so two
generators with the same seed produce identical draws at every index; the
state update is wraparound-32-bit (the stream only depends on the seed mod
2^32); every output word is < 2^32 and hence every float draw lies in [0,1). -/
theorem c8_mulberry32_stream :
    (∀ seed n, m32stream seed n = m32word (seed + (n + 1) * M32C)) ∧
    (∀ seed n, m32stream seed n = m32stream (seed % 2 ^ 32) n) ∧
    (∀ seed n, m32stream seed n < 2 ^ 32) ∧
    (∀ seed n, 0 ≤ m32draw seed n ∧ m32draw seed n < 1) := by
  have hcf := m32stream_closed_form
  have hlt : ∀ seed n, m32stream seed n < 2 ^ 32 := by
    intro seed n
    rw [hcf]
    exact m32word_lt _
  refine ⟨hcf, ?_, hlt, ?_⟩
  · intro seed n
    rw [hcf, hcf]
    exact m32word_congr _ _ (by omega)
  · intro seed n
    constructor
    · unfold m32draw
      positivity
    · unfold m32draw
      rw [div_lt_one (by norm_num)]
      have h := hlt seed n
      exact_mod_cast (by norm_num at h ⊢; exact h : m32stream seed n < 4294967296)

set_option maxRecDepth 100000 in
/-- C2: scenario generation is NOT a function of the seed alone: with the
same seed (here 42, same mulberry32 state for the choice shuffle), two runs
whose ambient Math.random draws differ (all-zero vs all-one-half) produce
different boards, because `shuffleDeck(deck)` is called without a seed and
never consults the seeded generator; and conversely the board is unchanged
when only the seed changes (1 vs 999) while the ambient draws are fixed. -/
theorem c2_board_ignores_seed :
    ((generateLevel1Scenario generateDeck 0 (fun _ => 0) 0 42).1.communityCards ≠
      (generateLevel1Scenario generateDeck 0 (fun _ => 2 ^ 52) 0 42).1.communityCards) ∧
    ((generateLevel1Scenario generateDeck 0 (fun _ => 0) 0 1).1.communityCards =
      (generateLevel1Scenario generateDeck 0 (fun _ => 0) 0 999).1.communityCards) := by
  constructor
  · decide
  · rfl

/-! ## The no-duplicate-cards invariant of scenario generation -/

theorem findTheNuts_holeCards_mem (B P : List Card) (hP : 2 ≤ P.length) :
    ∃ pr, (findTheNuts B P).holeCards = some pr ∧ pr ∈ pairs P := by
  rcases hpp : pairs P with _ | ⟨p, ps⟩
  · exact absurd hpp (pairs_ne_nil hP)
  · exact ⟨foldPick (fun x y => decide (evalCmp (nutsEval B x) (nutsEval B y) = .gt)) p ps,
      by rw [findTheNuts_eq_of_pairs_cons B P p ps hpp],
      foldPick_mem _ p ps⟩

theorem mem_decoyAvailable {pool : List Card} {used : List (Option (Card × Card))}
    {x : Card} :
    x ∈ decoyAvailable pool used ↔ x ∈ pool ∧ x ∉ used.flatMap choiceCardsOf := by
  simp [decoyAvailable]

theorem decoyAvailable_nodup {pool : List Card} {used : List (Option (Card × Card))}
    (h : pool.Nodup) : (decoyAvailable pool used).Nodup :=
  h.filter _

theorem decoyAvailable_length (pool : List Card) (used : List (Option (Card × Card)))
    (hnd : pool.Nodup) :
    pool.length ≤ (decoyAvailable pool used).length +
      (used.flatMap choiceCardsOf).length := by
  set ex := used.flatMap choiceCardsOf with hex
  have hsplit := List.length_eq_countP_add_countP
    (fun c : Card => !(decide (c ∈ ex))) pool
  have hfun : (fun a => decide ¬((fun c : Card => !(decide (c ∈ ex))) a = true)) =
      (fun a : Card => decide (a ∈ ex)) := by
    funext a
    by_cases hx : a ∈ ex <;> simp [hx]
  rw [hfun, List.countP_eq_length_filter, List.countP_eq_length_filter] at hsplit
  have hsubset : (pool.filter (fun a : Card => decide (a ∈ ex))) ⊆ ex := by
    intro x hx
    exact of_decide_eq_true (List.mem_filter.mp hx).2
  have hlenB : (pool.filter (fun a : Card => decide (a ∈ ex))).length ≤ ex.length :=
    (List.subperm_of_subset (hnd.filter _) hsubset).length_le
  have havail : (decoyAvailable pool used).length =
      (pool.filter (fun c : Card => !(decide (c ∈ ex)))).length := rfl
  omega

theorem decoyCandidates_ne_nil (community pool : List Card)
    (used : List (Option (Card × Card)))
    (h2 : 2 ≤ (decoyAvailable pool used).length) :
    decoyCandidates community pool used ≠ [] := by
  have hl : 2 ≤ ((decoyAvailable pool used).take 21).length := by
    rw [List.length_take]
    exact le_min (by norm_num) h2
  have hp := pairs_ne_nil hl
  intro hc
  rcases hq : pairs ((decoyAvailable pool used).take 21) with _ | ⟨q, qs⟩
  · exact hp hq
  · unfold decoyCandidates at hc
    rw [hq] at hc
    simp at hc

theorem generateDecoyHand_eq_of_cands_cons (community pool : List Card)
    (target : Nat) (used : List (Option (Card × Card)))
    (c : (Card × Card) × String × Nat) (cs : List ((Card × Card) × String × Nat))
    (hc : decoyCandidates community pool used = c :: cs) :
    (generateDecoyHand community pool target used).1 =
      some (foldPick (fun x y =>
        decide (Int.natAbs ((x.2.2 : Int) - (target : Int)) <
          Int.natAbs ((y.2.2 : Int) - (target : Int)))) c cs).1 := by
  unfold generateDecoyHand
  rw [hc]

theorem generateDecoyHand_spec (community pool : List Card) (target : Nat)
    (used : List (Option (Card × Card))) (hnd : pool.Nodup)
    (h2 : 2 ≤ (decoyAvailable pool used).length) :
    ∃ a b, (generateDecoyHand community pool target used).1 = some (a, b) ∧
      a ∈ pool ∧ b ∈ pool ∧
      a ∉ used.flatMap choiceCardsOf ∧ b ∉ used.flatMap choiceCardsOf ∧ a ≠ b := by
  rcases hc : decoyCandidates community pool used with _ | ⟨c, cs⟩
  · exact absurd hc (decoyCandidates_ne_nil community pool used h2)
  · have hmem := foldPick_mem (fun x y =>
      decide (Int.natAbs ((x.2.2 : Int) - (target : Int)) <
        Int.natAbs ((y.2.2 : Int) - (target : Int)))) c cs
    rw [← hc] at hmem
    unfold decoyCandidates at hmem
    rcases List.mem_map.mp hmem with ⟨p, hp, hpe⟩
    have hsubt : ((decoyAvailable pool used).take 21) ⊆ decoyAvailable pool used :=
      (List.take_sublist _ _).subset
    have hm1 := mem_decoyAvailable.mp (hsubt (pairs_mem hp).1)
    have hm2 := mem_decoyAvailable.mp (hsubt (pairs_mem hp).2)
    have hndT : ((decoyAvailable pool used).take 21).Nodup :=
      (List.take_sublist _ _).nodup (decoyAvailable_nodup hnd)
    have hne := pairs_ne hndT hp
    refine ⟨p.1, p.2, ?_, hm1.1, hm2.1, hm1.2, hm2.2, hne⟩
    rw [generateDecoyHand_eq_of_cands_cons community pool target used c cs hc]
    have hsel1 : (foldPick (fun x y =>
        decide (Int.natAbs ((x.2.2 : Int) - (target : Int)) <
          Int.natAbs ((y.2.2 : Int) - (target : Int)))) c cs).1 = p := by
      rw [← hpe]
    rw [hsel1]

theorem level1_step_inv (community remaining : List Card) (hndR : remaining.Nodup)
    (chs : List Choice) (target : Nat)
    (hsome : ∀ ch, ch ∈ chs → ch.holeCards.isSome = true)
    (hnodup : (choicesCards chs).Nodup)
    (hsub : ∀ x, x ∈ choicesCards chs → x ∈ remaining)
    (hlen : (choicesCards chs).length + 2 ≤ remaining.length) :
    (∀ ch, ch ∈ level1Step community remaining chs target →
      ch.holeCards.isSome = true) ∧
    (choicesCards (level1Step community remaining chs target)).Nodup ∧
    (∀ x, x ∈ choicesCards (level1Step community remaining chs target) →
      x ∈ remaining) ∧
    (choicesCards (level1Step community remaining chs target)).length ≤
      (choicesCards chs).length + 2 := by
  have hused : ((chs.map (fun ch => ch.holeCards)).flatMap choiceCardsOf) =
      choicesCards chs :=
    List.flatMap_map _ _ chs
  have hb := decoyAvailable_length remaining (chs.map (fun ch => ch.holeCards)) hndR
  rw [hused] at hb
  have h2 : 2 ≤ (decoyAvailable remaining (chs.map (fun ch => ch.holeCards))).length := by
    omega
  obtain ⟨a, b, hd, haP, hbP, haU, hbU, hab⟩ :=
    generateDecoyHand_spec community remaining target
      (chs.map (fun ch => ch.holeCards)) hndR h2
  rw [hused] at haU hbU
  have hflat : choicesCards (level1Step community remaining chs target) =
      choicesCards chs ++ choiceCardsOf
        (generateDecoyHand community remaining target
          (chs.map (fun ch => ch.holeCards))).1 := by
    unfold level1Step choicesCards
    rw [List.flatMap_append]
    simp
  refine ⟨?_, ?_, ?_, ?_⟩
  · intro ch hch
    unfold level1Step at hch
    rcases List.mem_append.mp hch with hm | hm
    · exact hsome ch hm
    · have hcheq : ch = ⟨"decoy-" ++ toString target,
          (generateDecoyHand community remaining target
            (chs.map (fun ch => ch.holeCards))).1, target⟩ := by
        simpa using hm
      rw [hcheq]
      show ((generateDecoyHand community remaining target
        (chs.map (fun ch => ch.holeCards))).1).isSome = true
      rw [hd]
      rfl
  · rw [hflat, hd]
    show (choicesCards chs ++ [a, b]).Nodup
    rw [List.nodup_append]
    refine ⟨hnodup, by simp [hab], ?_⟩
    intro x hx hx2
    simp only [List.mem_cons, List.not_mem_nil, or_false] at hx2
    rcases hx2 with h1 | h1
    · exact haU (by rw [← h1]; exact hx)
    · exact hbU (by rw [← h1]; exact hx)
  · intro x hx
    rw [hflat, hd] at hx
    rcases List.mem_append.mp hx with hm | hm
    · exact hsub x hm
    · simp only [choiceCardsOf, List.mem_cons, List.not_mem_nil, or_false] at hm
      rcases hm with h1 | h1
      · rw [h1]
        exact haP
      · rw [h1]
        exact hbP
  · rw [hflat, hd]
    show (choicesCards chs ++ [a, b]).length ≤ (choicesCards chs).length + 2
    rw [List.length_append]
    simp

theorem level1_fold_inv (community remaining : List Card) (hndR : remaining.Nodup)
    (targets : List Nat) :
    ∀ chs : List Choice,
      (∀ ch, ch ∈ chs → ch.holeCards.isSome = true) →
      (choicesCards chs).Nodup →
      (∀ x, x ∈ choicesCards chs → x ∈ remaining) →
      (choicesCards chs).length + 2 * targets.length ≤ remaining.length →
      (∀ ch, ch ∈ targets.foldl (level1Step community remaining) chs →
        ch.holeCards.isSome = true) ∧
      (choicesCards (targets.foldl (level1Step community remaining) chs)).Nodup ∧
      (∀ x, x ∈ choicesCards (targets.foldl (level1Step community remaining) chs) →
        x ∈ remaining) := by
  induction targets with
  | nil =>
    intro chs h1 h2 h3 _
    exact ⟨h1, h2, h3⟩
  | cons t ts ih =>
    intro chs h1 h2 h3 h4
    simp only [List.length_cons] at h4
    have hstep := level1_step_inv community remaining hndR chs t h1 h2 h3 (by omega)
    rw [List.foldl_cons]
    exact ih (level1Step community remaining chs t) hstep.1 hstep.2.1 hstep.2.2.1 (by
      have hl2 := hstep.2.2.2
      omega)

theorem level1Choices_inv (community remaining : List Card)
    (hndR : remaining.Nodup) (hlen : 8 ≤ remaining.length) :
    (∀ ch, ch ∈ level1Choices community remaining → ch.holeCards.isSome = true) ∧
    (choicesCards (level1Choices community remaining)).Nodup ∧
    (∀ x, x ∈ choicesCards (level1Choices community remaining) → x ∈ remaining) := by
  obtain ⟨pr, hpr, hprm⟩ := findTheNuts_holeCards_mem community remaining (by omega)
  have hbase : choicesCards
      [⟨"nuts", (findTheNuts community remaining).holeCards, 100⟩] = [pr.1, pr.2] := by
    unfold choicesCards
    simp [hpr, choiceCardsOf]
  have hmem := pairs_mem hprm
  have hne := pairs_ne hndR hprm
  exact level1_fold_inv community remaining hndR [70, 40, 10]
    [⟨"nuts", (findTheNuts community remaining).holeCards, 100⟩]
    (by
      intro ch hch
      have hcheq : ch = ⟨"nuts", (findTheNuts community remaining).holeCards, 100⟩ := by
        simpa using hch
      rw [hcheq]
      show ((findTheNuts community remaining).holeCards).isSome = true
      rw [hpr]
      rfl)
    (by
      rw [hbase]
      simp [hne])
    (by
      intro x hx
      rw [hbase] at hx
      simp only [List.mem_cons, List.not_mem_nil, or_false] at hx
      rcases hx with h1 | h1
      · rw [h1]
        exact hmem.1
      · rw [h1]
        exact hmem.2)
    (by
      rw [hbase]
      simpa using hlen)

set_option maxHeartbeats 1000000 in
/-- C9: for every duplicate-free 52-card deck, every ambient Math.random
stream, stream position and mulberry32 state, the Level-1 scenario has a
hole-card pair in every offered choice, and the multiset of all cards across
the 5 board cards and every choice's two hole cards has no repeated card:
the board and all choices are pairwise disjoint (everything is drawn from
one shuffled deck without replacement). -/
theorem c9_no_duplicate_cards (deck : List Card) (h52 : deck.length = 52)
    (hnd : deck.Nodup) (roundNum : Nat) (u : Nat → Nat) (pos g : Nat) :
    (∀ ch, ch ∈ (generateLevel1Scenario deck roundNum u pos g).1.choices →
      ch.holeCards.isSome = true) ∧
    ((generateLevel1Scenario deck roundNum u pos g).1.communityCards ++
      choicesCards (generateLevel1Scenario deck roundNum u pos g).1.choices).Nodup := by
  have hperm : List.Perm (shuffleDeck deck u pos).1 deck := fyAux_perm _ _ _ _
  have hndS : (shuffleDeck deck u pos).1.Nodup := (hperm.symm).nodup hnd
  have hlenS : (shuffleDeck deck u pos).1.length = 52 := by
    rw [hperm.length_eq, h52]
  have hsplit : (shuffleDeck deck u pos).1.take 5 ++ (shuffleDeck deck u pos).1.drop 5 =
      (shuffleDeck deck u pos).1 := List.take_append_drop 5 _
  have hndCR : ((shuffleDeck deck u pos).1.take 5 ++
      (shuffleDeck deck u pos).1.drop 5).Nodup := by
    rw [hsplit]
    exact hndS
  obtain ⟨hndC, hndR, hdisj⟩ := List.nodup_append.mp hndCR
  have hlenR : ((shuffleDeck deck u pos).1.drop 5).length = 47 := by
    rw [List.length_drop, hlenS]
  obtain ⟨hsome4, hnodup4, hsub4⟩ := level1Choices_inv
    ((shuffleDeck deck u pos).1.take 5) ((shuffleDeck deck u pos).1.drop 5)
    hndR (by omega)
  have hpermC : List.Perm
      (shuffleArraySeeded (level1Choices ((shuffleDeck deck u pos).1.take 5)
        ((shuffleDeck deck u pos).1.drop 5)) g).1
      (level1Choices ((shuffleDeck deck u pos).1.take 5)
        ((shuffleDeck deck u pos).1.drop 5)) := fyAux_perm _ _ _ _
  have hchoices : (generateLevel1Scenario deck roundNum u pos g).1.choices =
      (shuffleArraySeeded (level1Choices ((shuffleDeck deck u pos).1.take 5)
        ((shuffleDeck deck u pos).1.drop 5)) g).1 := rfl
  have hcc : (generateLevel1Scenario deck roundNum u pos g).1.communityCards =
      (shuffleDeck deck u pos).1.take 5 := rfl
  constructor
  · intro ch hch
    rw [hchoices] at hch
    exact hsome4 ch (hpermC.mem_iff.mp hch)
  · rw [hchoices, hcc]
    have hflatperm : List.Perm
        (choicesCards (shuffleArraySeeded (level1Choices
          ((shuffleDeck deck u pos).1.take 5)
          ((shuffleDeck deck u pos).1.drop 5)) g).1)
        (choicesCards (level1Choices ((shuffleDeck deck u pos).1.take 5)
          ((shuffleDeck deck u pos).1.drop 5))) :=
      List.Perm.flatMap_right _ hpermC
    rw [List.nodup_append]
    refine ⟨hndC, (hflatperm.symm).nodup hnodup4, ?_⟩
    intro x hx hx2
    have hxO := hflatperm.mem_iff.mp hx2
    exact absurd (hsub4 x hxO) (hdisj hx)

theorem c9_witness :
    (generateDeck.length = 52 ∧ generateDeck.Nodup) ∧
    ((∀ ch, ch ∈ (generateLevel1Scenario generateDeck 0 (fun _ => 0) 0 42).1.choices →
      ch.holeCards.isSome = true) ∧
    ((generateLevel1Scenario generateDeck 0 (fun _ => 0) 0 42).1.communityCards ++
      choicesCards (generateLevel1Scenario generateDeck 0 (fun _ => 0) 0 42).1.choices).Nodup) :=
  ⟨⟨by decide, by decide⟩,
    c9_no_duplicate_cards generateDeck (by decide) (by decide) 0 (fun _ => 0) 0 42⟩
